import Mathlib

/-!
Shallow embedding of the traffic signal-time estimation core of this
repository: the signal-time policy and multi-direction fairness rule of
`src/app.py`, and the IoU helper, tracker/deduplicator, EMA smoothing and
windowed regression slope of `src/stream_processor.py`.

Machine floats are modelled as rationals, Python ints as `Int`/`Nat`.
-/

namespace Traffic

/-- Half-to-even rounding: the behaviour of Python 3's builtin round,
used on the raw video-path signal time (src/app.py line 274). -/
def pyRound (q : ℚ) : ℤ :=
  if q - (⌊q⌋ : ℚ) < 1/2 then ⌊q⌋
  else if 1/2 < q - (⌊q⌋ : ℚ) then ⌊q⌋ + 1
  else if ⌊q⌋ % 2 = 0 then ⌊q⌋ else ⌊q⌋ + 1

/-- COCO class ids counted as vehicles (src/app.py line 74,
src/stream_processor.py line 22/219). -/
def vehicleClasses : Finset ℕ := {2, 3, 5, 7}

/-- Time-of-day adjustment of the video-path policy
(src/app.py lines 265-271): first branch wins for hour 22. -/
def time_effect (hour : ℕ) : ℤ :=
  if (8 ≤ hour ∧ hour ≤ 11) ∨ (18 ≤ hour ∧ hour ≤ 22) then 3
  else if 22 ≤ hour ∨ hour ≤ 7 then -3
  else 0

/-- Raw (unclamped) green time on the video path (src/app.py line 272). -/
def raw_time (rate : ℚ) (vcount : ℤ) (hour : ℕ) : ℚ :=
  33 + 10 * rate + 2 * ((vcount : ℚ) - 10) + (time_effect hour : ℚ)

/-- signalTime returned by the video path: round then clamp to [15, 65]
(src/app.py lines 272-277; identically lines 348-353). -/
def videoSignalTime (rate : ℚ) (vcount : ℤ) (hour : ℕ) : ℤ :=
  max 15 (min 65 (pyRound (raw_time rate vcount hour)))

/-- signalTime returned by the single-image path (src/app.py lines 132-134):
clamp to [10, 65], then add a flat 10 when an emergency vehicle was seen. -/
def detectSignalTime (vehicle_count : ℕ) (emergency_detected : Bool) : ℤ :=
  let signal_time := min (max (10 + (vehicle_count : ℤ) * 2) 10) 65
  if emergency_detected then signal_time + 10 else signal_time

/-- Clamp on rationals, written the way the spec states the policy formula. -/
def clampQ (x lo hi : ℚ) : ℚ := max lo (min x hi)

/-- Time-of-day adjustment as the spec words it: +3 during 08:00-11:00 and
18:00-22:00 (peak clause checked first), -3 during 22:00-24:00 and
00:00-07:00, else 0. -/
def todSpec (hour : ℕ) : ℤ :=
  if (8 ≤ hour ∧ hour ≤ 11) ∨ (18 ≤ hour ∧ hour ≤ 22) then 3
  else if (22 ≤ hour ∧ hour < 24) ∨ hour ≤ 7 then -3
  else 0

/-- Spec formula for the video-path green time: clamp the real-valued base
time to [15, 65], then round to an integer. -/
def specVideoGreen (slope : ℚ) (vcount : ℤ) (hour : ℕ) : ℤ :=
  pyRound (clampQ (33 + 10 * slope + 2 * ((vcount : ℚ) - 10) + (todSpec hour : ℚ)) 15 65)

/-- Spec formula for the image-path green time: clamp(10 + 2 * vehicleCount, 10, 65). -/
def specImageGreen (vcount : ℕ) : ℤ :=
  max 10 (min (10 + 2 * (vcount : ℤ)) 65)

/-- Axis-aligned box (x1, y1, x2, y2) in pixel coordinates. -/
structure Box where
  x1 : ℚ
  y1 : ℚ
  x2 : ℚ
  y2 : ℚ
deriving DecidableEq

/-- Clamped intersection area of two boxes
(src/stream_processor.py lines 251-257). -/
def interArea (boxA boxB : Box) : ℚ :=
  max 0 (min boxA.x2 boxB.x2 - max boxA.x1 boxB.x1) *
    max 0 (min boxA.y2 boxB.y2 - max boxA.y1 boxB.y1)

/-- Clamped area of one box (src/stream_processor.py lines 260-261). -/
def boxArea (b : Box) : ℚ := max 0 (b.x2 - b.x1) * max 0 (b.y2 - b.y1)

/-- IoU helper translated from src/stream_processor.py lines 250-263:
zero on empty intersection or non-positive union denominator. -/
def iou (boxA boxB : Box) : ℚ :=
  if interArea boxA boxB ≤ 0 then 0
  else if 0 < boxArea boxA + boxArea boxB - interArea boxA boxB then
    interArea boxA boxB / (boxArea boxA + boxArea boxB - interArea boxA boxB)
  else 0

/-- One detection of the adapter: class id, optional persistent track id,
box (fields used by src/stream_processor.py lines 302-329). -/
structure Det where
  cls : ℕ
  tid : Option ℤ
  box : Box
deriving DecidableEq

/-- One active track of the offline deduplicator
(src/stream_processor.py line 246). -/
structure Track where
  id : ℤ
  bbox : Box
  age : ℕ
  last_second : ℤ
deriving DecidableEq

/-- One processed frame: the second index the tracker bookkeeping reads
(current_second_index) and the frame's detections. -/
structure Frame where
  now : ℤ
  dets : List Det
deriving DecidableEq

/-- Deduplicator state across frames: active tracks, set of counted ids,
cumulative unique-vehicle total (src/stream_processor.py lines 246-270). -/
structure TrackerState where
  active : List Track
  counted : Finset ℤ
  total : ℕ
deriving DecidableEq

/-- Update the first active track whose id matches: new box, age + 1,
last_second := now (src/stream_processor.py lines 316-322). -/
def touchTrack (now : ℤ) (b : Box) (t : ℤ) : List Track → List Track
  | [] => []
  | tr :: rest =>
    if tr.id = t then { tr with bbox := b, age := tr.age + 1, last_second := now } :: rest
    else tr :: touchTrack now b t rest

/-- Whether some active track carries the given id. -/
def hasId (t : ℤ) (l : List Track) : Bool := l.any fun tr => tr.id = t

/-- Per-detection bookkeeping (src/stream_processor.py lines 306-329):
non-vehicle classes are skipped; a detection with a track id extends the
first matching track or appends a new track of age 1; a detection without
a track id changes nothing. -/
def updateDet (now : ℤ) (active : List Track) (d : Det) : List Track :=
  if d.cls ∈ vehicleClasses then
    match d.tid with
    | none => active
    | some t =>
      if hasId t active then touchTrack now d.box t active
      else active ++ [{ id := t, bbox := d.box, age := 1, last_second := now }]
  else active

/-- Fold of the per-detection update over one frame's detections. -/
def updatePhase (now : ℤ) (dets : List Det) (active : List Track) : List Track :=
  dets.foldl (updateDet now) active

/-- One iteration of the confirmation loop (src/stream_processor.py lines
332-337): a track of age at least 2 whose id has not been counted yet is
added to counted_track_ids and bumps total_unique_vehicles. -/
def confirmStep (acc : Finset ℤ × ℕ) (tr : Track) : Finset ℤ × ℕ :=
  if 2 ≤ tr.age ∧ tr.id ∉ acc.1 then (insert tr.id acc.1, acc.2 + 1) else acc

/-- The confirmation loop over all active tracks. -/
def confirmPhase (active : List Track) (counted : Finset ℤ) (total : ℕ) : Finset ℤ × ℕ :=
  active.foldl confirmStep (counted, total)

/-- Staleness pruning (src/stream_processor.py lines 339-346): keep only
tracks seen within the last 3 second-buckets. -/
def prunePhase (now : ℤ) (active : List Track) : List Track :=
  active.filter fun tr => now - tr.last_second ≤ 3

/-- One processed frame of the deduplicator. The whole block is guarded by
a non-empty detection list (src/stream_processor.py line 302): an empty
frame performs no update, confirmation or pruning. -/
def frameStep (s : TrackerState) (f : Frame) : TrackerState :=
  if f.dets.isEmpty then s
  else
    let act := updatePhase f.now f.dets s.active
    let ct := confirmPhase act s.counted s.total
    { active := prunePhase f.now act, counted := ct.1, total := ct.2 }

/-- The deduplicator run over a whole sequence of processed frames,
starting from no tracks and a zero count. -/
def runTracker (frames : List Frame) : TrackerState :=
  frames.foldl frameStep { active := [], counted := ∅, total := 0 }

/-- A concrete unit box used by the concrete evaluations. -/
def demoBox : Box := ⟨0, 0, 10, 10⟩

/-- A demonstration start state for the witnesses: no tracks, nothing counted. -/
def demoState : TrackerState := ⟨[], ∅, 0⟩

/-- A demonstration frame in which track id 7 is matched twice, so its age
reaches 2 within the frame. -/
def demoFrame : Frame := ⟨0, [⟨2, some 7, demoBox⟩, ⟨2, some 7, demoBox⟩]⟩

/-- EMA smoothing factor (src/stream_processor.py lines 111, 411). -/
def ema_alpha : ℚ := 3/10

/-- One EMA update on bucket close (src/stream_processor.py lines 110-115
and 410-415): the first closed bucket seeds the EMA with the bucket's
instantaneous rate, later buckets blend with factor alpha. -/
def emaUpdate : Option ℚ → ℚ → ℚ
  | none, rate => rate
  | some prev, rate => ema_alpha * rate + (1 - ema_alpha) * prev

/-- The sequence of smoothed-rate samples emitted for a sequence of
instantaneous bucket rates, one per closed bucket. -/
def emaSamples : Option ℚ → List ℚ → List ℚ
  | _, [] => []
  | prev, rate :: rest => emaUpdate prev rate :: emaSamples (some (emaUpdate prev rate)) rest

/-- Numerical x-variance guard (src/stream_processor.py lines 174 and 487). -/
def var_eps : ℚ := 1 / 1000000000

/-- Default trailing-window width for live-stream sessions
(src/stream_processor.py line 18). -/
def slope_window_seconds_stream : ℚ := 12

/-- Default trailing-window width for offline video analysis
(src/stream_processor.py line 212). -/
def slope_window_seconds_offline : ℚ := 10

/-- Windowed regression slope translated from src/stream_processor.py
lines 465-487 (the same computation as _compute_slope_locked, lines
150-178): keep the samples within slope_window_seconds of the last
sample's bucket index, split them into xs/ys, and return cov/var with the
two degenerate-input guards returning 0. -/
def computeSlope (slope_window_seconds : ℚ) (per_second_counts : List (ℚ × ℚ)) : ℚ :=
  match per_second_counts.getLast? with
  | none => 0
  | some tlast =>
    let xs := (per_second_counts.filter fun p =>
      tlast.1 - slope_window_seconds ≤ p.1).map Prod.fst
    let ys := (per_second_counts.filter fun p =>
      tlast.1 - slope_window_seconds ≤ p.1).map Prod.snd
    if xs.length < 2 then 0
    else
      let x_mean := xs.sum / (xs.length : ℚ)
      let y_mean := ys.sum / (ys.length : ℚ)
      let var_x := (xs.map fun x => (x - x_mean) * (x - x_mean)).sum
      if var_x ≤ var_eps then 0
      else ((xs.zip ys).map fun p => (p.1 - x_mean) * (p.2 - y_mean)).sum / var_x

/-- Mean of the x coordinates of a sample list. -/
def xmean (pts : List (ℚ × ℚ)) : ℚ := (pts.map Prod.fst).sum / (pts.length : ℚ)

/-- Mean of the y coordinates of a sample list. -/
def ymean (pts : List (ℚ × ℚ)) : ℚ := (pts.map Prod.snd).sum / (pts.length : ℚ)

/-- Sum of squared x deviations. -/
def sxx (pts : List (ℚ × ℚ)) : ℚ :=
  (pts.map fun p => (p.1 - xmean pts) * (p.1 - xmean pts)).sum

/-- Sum of products of x and y deviations. -/
def sxy (pts : List (ℚ × ℚ)) : ℚ :=
  (pts.map fun p => (p.1 - xmean pts) * (p.2 - ymean pts)).sum

/-- Ordinary least-squares regression slope over (x, y) samples as the
spec states it, with the spec's two degenerate-input guards. -/
def olsSlope (pts : List (ℚ × ℚ)) : ℚ :=
  if pts.length < 2 then 0
  else if sxx pts ≤ var_eps then 0
  else sxy pts / sxx pts

/-- The trailing window, measured from the most recent sample's bucket index. -/
def windowedSamples (w : ℚ) (samples : List (ℚ × ℚ)) : List (ℚ × ℚ) :=
  match samples.getLast? with
  | none => []
  | some tlast => samples.filter fun p => tlast.1 - w ≤ p.1

/-- The spec's slope contract: the OLS slope of the windowed samples. -/
def slopeSpec (w : ℚ) (samples : List (ℚ × ℚ)) : ℚ := olsSlope (windowedSamples w samples)

/-- Compass directions of the multi-direction batch endpoint. -/
inductive Direction
  | north
  | south
  | east
  | west
deriving DecidableEq

/-- Fixed output order of directions (src/app.py line 383):
north 0, west 1, east 2, south 3. -/
def dirOrder : Direction → ℕ
  | .north => 0
  | .west => 1
  | .east => 2
  | .south => 3

/-- lanes_out as built by analyze_video_multi_v1 (src/app.py lines
290-313, 319-362): one entry per provided direction, produced in the
processing order north, south, east, west. -/
def lanesOut (n s e w : Option ℤ) : List (Direction × ℤ) :=
  (n.toList.map fun v => (Direction.north, v)) ++
  (s.toList.map fun v => (Direction.south, v)) ++
  (e.toList.map fun v => (Direction.east, v)) ++
  (w.toList.map fun v => (Direction.west, v))

/-- by_dir dictionary lookup (src/app.py line 365): the last entry of a
direction wins. -/
def byDir (lanes : List (Direction × ℤ)) (d : Direction) : Option ℤ :=
  ((lanes.filter fun p => p.1 = d).getLast?).map Prod.snd

/-- max_pair (src/app.py lines 368-370): maximum over the present members
of an opposing pair, none when neither is present. -/
def maxPair (a b : Option ℤ) : Option ℤ :=
  match a, b with
  | some x, some y => some (max x y)
  | some x, none => some x
  | none, some y => some y
  | none, none => none

/-- The in-place overwrite of both members of each opposing pair with the
pair maximum (src/app.py lines 371-380). -/
def pairAdjust (lanes : List (Direction × ℤ)) : List (Direction × ℤ) :=
  lanes.map fun p =>
    match p.1 with
    | .north => (p.1, (maxPair (byDir lanes .north) (byDir lanes .south)).getD p.2)
    | .south => (p.1, (maxPair (byDir lanes .north) (byDir lanes .south)).getD p.2)
    | .east => (p.1, (maxPair (byDir lanes .east) (byDir lanes .west)).getD p.2)
    | .west => (p.1, (maxPair (byDir lanes .east) (byDir lanes .west)).getD p.2)

/-- The compass-order sort of the lane list (src/app.py lines 383-384). -/
def sortLanes (lanes : List (Direction × ℤ)) : List (Direction × ℤ) :=
  lanes.insertionSort fun a b => dirOrder a.1 ≤ dirOrder b.1

/-- The lanes returned by the batch endpoint for the per-direction green
times computed independently upstream. -/
def analyzeMultiLanes (n s e w : Option ℤ) : List (Direction × ℤ) :=
  sortLanes (pairAdjust (lanesOut n s e w))

theorem floor_le_pyRound (q : ℚ) : ⌊q⌋ ≤ pyRound q := by
  unfold pyRound; split_ifs <;> omega

theorem pyRound_le_floor_add_one (q : ℚ) : pyRound q ≤ ⌊q⌋ + 1 := by
  unfold pyRound; split_ifs <;> omega

theorem pyRound_intCast (n : ℤ) : pyRound (n : ℚ) = n := by
  unfold pyRound
  rw [Int.floor_intCast]
  norm_num

theorem le_pyRound_of_le {n : ℤ} {q : ℚ} (h : (n : ℚ) ≤ q) : n ≤ pyRound q :=
  le_trans (Int.le_floor.mpr h) (floor_le_pyRound q)

theorem pyRound_le_of_le {n : ℤ} {q : ℚ} (h : q ≤ (n : ℚ)) : pyRound q ≤ n := by
  have hfl : ⌊q⌋ ≤ n := by
    have := Int.floor_le_floor (α := ℚ) h
    simpa using this
  rcases lt_or_eq_of_le hfl with hlt | heq
  · have := pyRound_le_floor_add_one q
    omega
  · have hq : q = (n : ℚ) := by
      have h1 : (n : ℚ) ≤ q := by
        rw [← heq]; exact Int.floor_le q
      linarith
    rw [hq, pyRound_intCast]

theorem clamp_pyRound (x : ℚ) :
    max 15 (min 65 (pyRound x)) = pyRound (max 15 (min x 65)) := by
  rcases le_total x 15 with h15 | h15
  · have hmin : min x 65 = x := min_eq_left (by linarith)
    have hmax : max (15 : ℚ) x = 15 := max_eq_left h15
    rw [hmin, hmax]
    have h15q : pyRound (15 : ℚ) = 15 := by
      have := pyRound_intCast 15
      norm_num at this
      exact this
    rw [h15q]
    have h1 : pyRound x ≤ 15 := pyRound_le_of_le (by exact_mod_cast h15)
    rw [min_eq_right (by omega : pyRound x ≤ 65), max_eq_left h1]
  · rcases le_total x 65 with h65 | h65
    · have hmin : min x 65 = x := min_eq_left h65
      have hmax : max (15 : ℚ) x = x := max_eq_right h15
      rw [hmin, hmax]
      have hlo : (15 : ℤ) ≤ pyRound x := le_pyRound_of_le (by exact_mod_cast h15)
      have hhi : pyRound x ≤ 65 := pyRound_le_of_le (by exact_mod_cast h65)
      rw [min_eq_right hhi, max_eq_right hlo]
    · have hmin : min x 65 = 65 := min_eq_right h65
      have hmax : max (15 : ℚ) 65 = 65 := by norm_num
      rw [hmin, hmax]
      have h65q : pyRound (65 : ℚ) = 65 := by
        have := pyRound_intCast 65
        norm_num at this
        exact this
      rw [h65q]
      have h1 : (65 : ℤ) ≤ pyRound x := le_pyRound_of_le (by exact_mod_cast h65)
      rw [min_eq_left h1, max_eq_right (by omega : (15 : ℤ) ≤ 65)]

theorem time_effect_eq_todSpec {hour : ℕ} (h : hour < 24) :
    time_effect hour = todSpec hour := by
  interval_cases hour <;> rfl

/-- C2 counterexample: at vehicleCount = 28 with an emergency vehicle the
single-image path returns 75, outside the claimed range [10, 65] (the
flat +10 is added after clamping). -/
theorem detectSignalTime_exceeds_claimed_bound :
    detectSignalTime 28 true = 75 ∧ ¬(detectSignalTime 28 true ≤ 65) := by
  decide

/-- C2 (amended): the video path always lies in [15, 65]; the image path
lies in [10, 65] when no emergency vehicle is detected, and in [20, 75]
when one is (the +10 is applied after the clamp). -/
theorem signalTime_bounds (rate : ℚ) (vcount : ℤ) (hour : ℕ) (vc : ℕ) :
    (15 ≤ videoSignalTime rate vcount hour ∧ videoSignalTime rate vcount hour ≤ 65) ∧
    (10 ≤ detectSignalTime vc false ∧ detectSignalTime vc false ≤ 65) ∧
    (20 ≤ detectSignalTime vc true ∧ detectSignalTime vc true ≤ 75) := by
  refine ⟨⟨le_max_left _ _, ?_⟩, ⟨?_, ?_⟩, ⟨?_, ?_⟩⟩
  · exact max_le (by norm_num) (min_le_left _ _)
  · exact le_min (le_max_right _ _) (by norm_num)
  · exact min_le_right _ _
  · have : (10 : ℤ) ≤ min (max (10 + (vc : ℤ) * 2) 10) 65 :=
      le_min (le_max_right _ _) (by norm_num)
    simpa [detectSignalTime] using by omega
  · have : min (max (10 + (vc : ℤ) * 2) 10) 65 ≤ 65 := min_le_right _ _
    simpa [detectSignalTime] using by omega

/-- C3: for real hours (hour < 24) the video-path signal time equals the
spec formula clamp(33 + 10*slope + 2*(vehicleCount - 10) + tod, 15, 65)
rounded to an integer, and the image path equals clamp(10 + 2*vehicleCount,
10, 65). -/
theorem signalTime_eq_spec (rate : ℚ) (vcount : ℤ) (hour : ℕ) (h : hour < 24) (vc : ℕ) :
    videoSignalTime rate vcount hour = specVideoGreen rate vcount hour ∧
    detectSignalTime vc false = specImageGreen vc := by
  constructor
  · unfold videoSignalTime specVideoGreen clampQ raw_time
    rw [time_effect_eq_todSpec h, clamp_pyRound]
  · unfold detectSignalTime specImageGreen
    simp only [Bool.false_eq_true, if_false]
    have h2 : (vc : ℤ) * 2 = 2 * (vc : ℤ) := by ring
    rw [h2]
    have h0 : (10 : ℤ) ≤ 10 + 2 * (vc : ℤ) := by
      have : (0 : ℤ) ≤ (vc : ℤ) := Int.ofNat_nonneg vc
      omega
    rw [max_eq_left h0, max_eq_right (le_min h0 (by norm_num))]

/-- C3 witness: the equalities instantiated at slope 1/2, vehicleCount 5,
hour 22 and image vehicleCount 3. -/
theorem signalTime_eq_spec_witness :
    (22 : ℕ) < 24 ∧
    (videoSignalTime (1/2) 5 22 = specVideoGreen (1/2) 5 22 ∧
      detectSignalTime 3 false = specImageGreen 3) :=
  ⟨by decide, signalTime_eq_spec (1/2) 5 22 (by decide) 3⟩

/-- C1: the IoU fallback the spec describes does not exist. Two consecutive
frames each carrying one vehicle detection without a track id — the very
boxes having IoU 1, above any threshold — produce no track, no merge and a
zero unique-vehicle count: detections without ids are dropped by the
deduplicator (the iou helper is never invoked by the update loop). -/
theorem untracked_detections_never_associated :
    iou demoBox demoBox = 1 ∧
    runTracker [⟨0, [⟨2, none, demoBox⟩]⟩, ⟨1, [⟨2, none, demoBox⟩]⟩] =
      { active := [], counted := ∅, total := 0 } := by
  constructor
  · norm_num [iou, interArea, boxArea, demoBox]
  · rfl

theorem confirmPhase_nil (c : Finset ℤ) (n : ℕ) : confirmPhase [] c n = (c, n) := rfl

theorem confirmPhase_cons (tr : Track) (l : List Track) (c : Finset ℤ) (n : ℕ) :
    confirmPhase (tr :: l) c n =
      if 2 ≤ tr.age ∧ tr.id ∉ c then confirmPhase l (insert tr.id c) (n + 1)
      else confirmPhase l c n := by
  unfold confirmPhase
  simp only [List.foldl_cons, confirmStep]
  split_ifs with h <;> rfl

theorem confirm_subset (l : List Track) (c : Finset ℤ) (n : ℕ) :
    c ⊆ (confirmPhase l c n).1 := by
  induction l generalizing c n with
  | nil => simp [confirmPhase_nil]
  | cons tr l ih =>
    rw [confirmPhase_cons]
    split_ifs with h
    · exact fun x hx => ih (insert tr.id c) (n + 1) (Finset.mem_insert_of_mem hx)
    · exact ih c n

theorem confirm_mem (l : List Track) (c : Finset ℤ) (n : ℕ) (t : ℤ) :
    t ∈ (confirmPhase l c n).1 ↔ t ∈ c ∨ ∃ tr ∈ l, tr.id = t ∧ 2 ≤ tr.age := by
  induction l generalizing c n with
  | nil => simp [confirmPhase_nil]
  | cons tr l ih =>
    rw [confirmPhase_cons]
    split_ifs with h
    · rw [ih]
      constructor
      · rintro (h1 | ⟨tr2, h3, h4, h5⟩)
        · rcases Finset.mem_insert.mp h1 with heq | hc
          · exact Or.inr ⟨tr, List.mem_cons_self tr l, heq.symm, h.1⟩
          · exact Or.inl hc
        · exact Or.inr ⟨tr2, List.mem_cons_of_mem _ h3, h4, h5⟩
      · rintro (hc | ⟨tr2, h3, h4, h5⟩)
        · exact Or.inl (Finset.mem_insert_of_mem hc)
        · rcases List.mem_cons.mp h3 with rfl | h6
          · exact Or.inl (Finset.mem_insert.mpr (Or.inl h4.symm))
          · exact Or.inr ⟨tr2, h6, h4, h5⟩
    · rw [ih]
      constructor
      · rintro (hc | ⟨tr2, h3, h4, h5⟩)
        · exact Or.inl hc
        · exact Or.inr ⟨tr2, List.mem_cons_of_mem _ h3, h4, h5⟩
      · rintro (hc | ⟨tr2, h3, h4, h5⟩)
        · exact Or.inl hc
        · rcases List.mem_cons.mp h3 with rfl | h6
          · rw [not_and, not_not] at h
            exact Or.inl (h4 ▸ h h5)
          · exact Or.inr ⟨tr2, h6, h4, h5⟩

theorem confirm_card (l : List Track) (c : Finset ℤ) (n : ℕ) :
    (confirmPhase l c n).2 + c.card = n + (confirmPhase l c n).1.card := by
  induction l generalizing c n with
  | nil => simp [confirmPhase_nil]
  | cons tr l ih =>
    rw [confirmPhase_cons]
    split_ifs with h
    · have := ih (insert tr.id c) (n + 1)
      rw [Finset.card_insert_of_not_mem h.2] at this
      omega
    · exact ih c n

theorem frameStep_of_ne (s : TrackerState) (f : Frame) (h : f.dets.isEmpty = false) :
    frameStep s f =
      { active := prunePhase f.now (updatePhase f.now f.dets s.active),
        counted := (confirmPhase (updatePhase f.now f.dets s.active) s.counted s.total).1,
        total := (confirmPhase (updatePhase f.now f.dets s.active) s.counted s.total).2 } := by
  unfold frameStep
  rw [h]
  rfl

/-- C4: in every frame of every run, the unique-vehicle total equals the
number of counted ids, the total rises by exactly the number of ids newly
confirmed in that frame, counted ids are never forgotten, and an id is
(newly) counted exactly when some active track carries it at age at least
2 — so each id is counted exactly once, at the frame where its matched
count reaches 2, and never again. -/
theorem uniqueCount_increments_once (s : TrackerState) (f : Frame) (t : ℤ)
    (hinv : s.total = s.counted.card) :
    (frameStep s f).total = (frameStep s f).counted.card ∧
    (frameStep s f).total = s.total + ((frameStep s f).counted \ s.counted).card ∧
    (t ∈ s.counted → t ∈ (frameStep s f).counted) ∧
    (t ∈ (frameStep s f).counted ↔
      t ∈ s.counted ∨ (f.dets ≠ [] ∧
        ∃ tr ∈ updatePhase f.now f.dets s.active, tr.id = t ∧ 2 ≤ tr.age)) := by
  cases hdet : f.dets.isEmpty with
  | true =>
    have hnil : f.dets = [] := List.isEmpty_iff.mp hdet
    have hs : frameStep s f = s := by unfold frameStep; rw [hdet]; rfl
    rw [hs]
    refine ⟨hinv, by simp, fun h => h, ?_⟩
    simp [hnil]
  | false =>
    have hnil : f.dets ≠ [] := by
      intro hc
      rw [hc] at hdet
      simp at hdet
    rw [frameStep_of_ne s f hdet]
    dsimp only
    have hsub := confirm_subset (updatePhase f.now f.dets s.active) s.counted s.total
    have hcard := confirm_card (updatePhase f.now f.dets s.active) s.counted s.total
    have hmem := confirm_mem (updatePhase f.now f.dets s.active) s.counted s.total t
    have hle := Finset.card_le_card hsub
    have hsd := Finset.card_sdiff hsub
    refine ⟨by omega, by rw [hsd]; omega, fun h => hsub h, ?_⟩
    simpa [hnil] using hmem

/-- C4 witness: the statement instantiated at a concrete state and frame
in which id 7 reaches age 2 and is counted. -/
theorem uniqueCount_increments_once_witness :
    demoState.total = demoState.counted.card ∧
    ((frameStep demoState demoFrame).total = (frameStep demoState demoFrame).counted.card ∧
     (frameStep demoState demoFrame).total =
       demoState.total + ((frameStep demoState demoFrame).counted \ demoState.counted).card ∧
     (7 ∈ demoState.counted → 7 ∈ (frameStep demoState demoFrame).counted) ∧
     (7 ∈ (frameStep demoState demoFrame).counted ↔
       7 ∈ demoState.counted ∨ (demoFrame.dets ≠ [] ∧
         ∃ tr ∈ updatePhase demoFrame.now demoFrame.dets demoState.active,
           tr.id = 7 ∧ 2 ≤ tr.age))) :=
  ⟨rfl, uniqueCount_increments_once demoState demoFrame 7 rfl⟩

theorem touchTrack_reaches (now : ℤ) (b : Box) (t : ℤ) (l : List Track)
    (h : ∃ tr ∈ l, tr.id = t) :
    ∃ tr ∈ touchTrack now b t l, tr.id = t ∧ tr.last_second = now := by
  induction l with
  | nil => simp at h
  | cons tr0 rest ih =>
    by_cases h0 : tr0.id = t
    · refine ⟨{ tr0 with bbox := b, age := tr0.age + 1, last_second := now }, ?_, h0, rfl⟩
      simp [touchTrack, h0]
    · rcases h with ⟨tr1, h1, h2⟩
      rcases List.mem_cons.mp h1 with rfl | h1
      · exact absurd h2 h0
      · rcases ih ⟨tr1, h1, h2⟩ with ⟨tr2, h3, h4⟩
        refine ⟨tr2, ?_, h4⟩
        simp [touchTrack, h0, h3]

theorem touchTrack_preserves (now : ℤ) (b : Box) (t t2 : ℤ) (l : List Track)
    (h : ∃ tr ∈ l, tr.id = t ∧ tr.last_second = now) :
    ∃ tr ∈ touchTrack now b t2 l, tr.id = t ∧ tr.last_second = now := by
  by_cases heq : t2 = t
  · subst heq
    rcases h with ⟨tr1, h1, h2, _⟩
    exact touchTrack_reaches now b t2 l ⟨tr1, h1, h2⟩
  · induction l with
    | nil => simp at h
    | cons tr0 rest ih =>
      rcases h with ⟨tr1, h1, h2⟩
      by_cases h0 : tr0.id = t2
      · rcases List.mem_cons.mp h1 with rfl | h1
        · exact absurd (h2.1.symm.trans h0) (fun hx => heq hx.symm)
        · refine ⟨tr1, ?_, h2⟩
          simp [touchTrack, h0, h1]
      · rcases List.mem_cons.mp h1 with rfl | h1
        · refine ⟨tr1, ?_, h2⟩
          simp [touchTrack, h0]
        · rcases ih ⟨tr1, h1, h2⟩ with ⟨tr2, h3, h4⟩
          refine ⟨tr2, ?_, h4⟩
          simp [touchTrack, h0, h3]

theorem updateDet_preserves (now : ℤ) (active : List Track) (d : Det) (t : ℤ)
    (h : ∃ tr ∈ active, tr.id = t ∧ tr.last_second = now) :
    ∃ tr ∈ updateDet now active d, tr.id = t ∧ tr.last_second = now := by
  unfold updateDet
  split_ifs with hcls
  · cases d.tid with
    | none => exact h
    | some t2 =>
      by_cases hh : hasId t2 active
      · simp only [hh, if_true]
        exact touchTrack_preserves now d.box t t2 active h
      · simp only [hh, if_false]
        rcases h with ⟨tr1, h1, h2⟩
        exact ⟨tr1, List.mem_append_left _ h1, h2⟩
  · exact h

theorem updateDet_establishes (now : ℤ) (active : List Track) (d : Det) (t : ℤ)
    (hcls : d.cls ∈ vehicleClasses) (htid : d.tid = some t) :
    ∃ tr ∈ updateDet now active d, tr.id = t ∧ tr.last_second = now := by
  unfold updateDet
  rw [if_pos hcls, htid]
  by_cases hh : hasId t active
  · simp only [hh, if_true]
    have : ∃ tr ∈ active, tr.id = t := by
      have := (List.any_eq_true).mp hh
      rcases this with ⟨tr, h1, h2⟩
      exact ⟨tr, h1, by simpa using h2⟩
    exact touchTrack_reaches now d.box t active this
  · simp only [hh, if_false]
    exact ⟨{ id := t, bbox := d.box, age := 1, last_second := now },
      List.mem_append_right _ (List.mem_singleton.mpr rfl), rfl, rfl⟩

theorem updatePhase_preserves (now : ℤ) (dets : List Det) (active : List Track) (t : ℤ)
    (h : ∃ tr ∈ active, tr.id = t ∧ tr.last_second = now) :
    ∃ tr ∈ updatePhase now dets active, tr.id = t ∧ tr.last_second = now := by
  induction dets generalizing active with
  | nil => exact h
  | cons d rest ih => exact ih (updateDet now active d) (updateDet_preserves now active d t h)

theorem updatePhase_establishes (now : ℤ) (dets : List Det) (active : List Track) (t : ℤ)
    (h : ∃ d ∈ dets, d.cls ∈ vehicleClasses ∧ d.tid = some t) :
    ∃ tr ∈ updatePhase now dets active, tr.id = t ∧ tr.last_second = now := by
  induction dets generalizing active with
  | nil => simp at h
  | cons d rest ih =>
    rcases h with ⟨d1, h1, h2, h3⟩
    rcases List.mem_cons.mp h1 with rfl | h1
    · exact updatePhase_preserves now rest (updateDet now active d1) t
        (updateDet_establishes now active d1 t h2 h3)
    · exact ih (updateDet now active d) ⟨d1, h1, h2, h3⟩

/-- C5 (amended): on every non-empty frame, every track surviving the step
was seen within the last 3 buckets (stale tracks are pruned from the
active set); counted ids are retained in the cumulative total and a
counted id is never re-counted; and an id appearing among the frame's
vehicle detections is active again after the step (a pruned id restarts as
a fresh track), though — being already counted — it never increments the
total again. -/
theorem stale_tracks_pruned_counts_retained (s : TrackerState) (f : Frame) (t : ℤ)
    (h : f.dets ≠ []) :
    (∀ tr ∈ (frameStep s f).active, f.now - tr.last_second ≤ 3) ∧
    (t ∈ s.counted → t ∈ (frameStep s f).counted) ∧
    (t ∈ s.counted → t ∉ (frameStep s f).counted \ s.counted) ∧
    ((∃ d ∈ f.dets, d.cls ∈ vehicleClasses ∧ d.tid = some t) →
      ∃ tr ∈ (frameStep s f).active, tr.id = t ∧ tr.last_second = f.now) := by
  have hdet : f.dets.isEmpty = false := by
    cases hd : f.dets with
    | nil => exact absurd hd h
    | cons a l => rfl
  rw [frameStep_of_ne s f hdet]
  refine ⟨?_, ?_, ?_, ?_⟩
  · intro tr htr
    have := List.mem_filter.mp htr
    simpa using this.2
  · exact fun hc => confirm_subset _ _ _ hc
  · intro hc hsd
    exact (Finset.mem_sdiff.mp hsd).2 hc
  · intro hex
    rcases updatePhase_establishes f.now f.dets s.active t hex with ⟨tr, h1, h2, h3⟩
    refine ⟨tr, ?_, h2, h3⟩
    refine List.mem_filter.mpr ⟨h1, ?_⟩
    rw [h3]
    simp

/-- C5 witness: instantiated at a state holding one already-counted stale
track with id 7 and a frame in which id 7 reappears. -/
theorem stale_tracks_pruned_counts_retained_witness :
    (⟨5, [⟨2, some 7, demoBox⟩]⟩ : Frame).dets ≠ [] ∧
    ((∀ tr ∈ (frameStep ⟨[⟨7, demoBox, 2, 0⟩], {7}, 1⟩ ⟨5, [⟨2, some 7, demoBox⟩]⟩).active,
        (5 : ℤ) - tr.last_second ≤ 3) ∧
     ((7 : ℤ) ∈ ({7} : Finset ℤ) →
        7 ∈ (frameStep ⟨[⟨7, demoBox, 2, 0⟩], {7}, 1⟩ ⟨5, [⟨2, some 7, demoBox⟩]⟩).counted) ∧
     ((7 : ℤ) ∈ ({7} : Finset ℤ) →
        7 ∉ (frameStep ⟨[⟨7, demoBox, 2, 0⟩], {7}, 1⟩ ⟨5, [⟨2, some 7, demoBox⟩]⟩).counted \
          ({7} : Finset ℤ)) ∧
     ((∃ d ∈ (⟨5, [⟨2, some 7, demoBox⟩]⟩ : Frame).dets,
          d.cls ∈ vehicleClasses ∧ d.tid = some 7) →
        ∃ tr ∈ (frameStep ⟨[⟨7, demoBox, 2, 0⟩], {7}, 1⟩ ⟨5, [⟨2, some 7, demoBox⟩]⟩).active,
          tr.id = 7 ∧ tr.last_second = 5)) :=
  ⟨by simp, stale_tracks_pruned_counts_retained ⟨[⟨7, demoBox, 2, 0⟩], {7}, 1⟩
    ⟨5, [⟨2, some 7, demoBox⟩]⟩ 7 (by simp)⟩

/-- C5 counterexample: id 7 is confirmed (total 1), goes unseen for more
than 3 buckets and is pruned, then reappears and reaches age 2 again — yet
the total stays 1, not 2: a pruned id is never counted as a new vehicle. -/
theorem pruned_id_reappearing_not_recounted :
    (runTracker [⟨0, [⟨2, some 7, demoBox⟩]⟩, ⟨1, [⟨2, some 7, demoBox⟩]⟩,
        ⟨5, [⟨2, some 9, demoBox⟩]⟩]).active.map Track.id = [9] ∧
    (runTracker [⟨0, [⟨2, some 7, demoBox⟩]⟩, ⟨1, [⟨2, some 7, demoBox⟩]⟩,
        ⟨5, [⟨2, some 9, demoBox⟩]⟩, ⟨6, [⟨2, some 7, demoBox⟩]⟩,
        ⟨7, [⟨2, some 7, demoBox⟩]⟩]).active.map (fun tr => (tr.id, tr.age)) =
      [(9, 1), (7, 2)] ∧
    (runTracker [⟨0, [⟨2, some 7, demoBox⟩]⟩, ⟨1, [⟨2, some 7, demoBox⟩]⟩,
        ⟨5, [⟨2, some 9, demoBox⟩]⟩, ⟨6, [⟨2, some 7, demoBox⟩]⟩,
        ⟨7, [⟨2, some 7, demoBox⟩]⟩]).total = 1 := by
  refine ⟨rfl, rfl, rfl⟩

theorem interArea_nonneg (boxA boxB : Box) : 0 ≤ interArea boxA boxB :=
  mul_nonneg (le_max_left 0 _) (le_max_left 0 _)

theorem boxArea_nonneg (b : Box) : 0 ≤ boxArea b :=
  mul_nonneg (le_max_left 0 _) (le_max_left 0 _)

theorem interArea_le_left (boxA boxB : Box) : interArea boxA boxB ≤ boxArea boxA := by
  unfold interArea boxArea
  have hw : max 0 (min boxA.x2 boxB.x2 - max boxA.x1 boxB.x1) ≤ max 0 (boxA.x2 - boxA.x1) :=
    max_le_max le_rfl (sub_le_sub (min_le_left _ _) (le_max_left _ _))
  have hh : max 0 (min boxA.y2 boxB.y2 - max boxA.y1 boxB.y1) ≤ max 0 (boxA.y2 - boxA.y1) :=
    max_le_max le_rfl (sub_le_sub (min_le_left _ _) (le_max_left _ _))
  exact mul_le_mul hw hh (le_max_left 0 _) (le_max_left 0 _)

theorem interArea_comm (boxA boxB : Box) : interArea boxA boxB = interArea boxB boxA := by
  unfold interArea
  rw [min_comm boxA.x2 boxB.x2, max_comm boxA.x1 boxB.x1,
    min_comm boxA.y2 boxB.y2, max_comm boxA.y1 boxB.y1]

theorem interArea_le_right (boxA boxB : Box) : interArea boxA boxB ≤ boxArea boxB := by
  rw [interArea_comm]
  exact interArea_le_left boxB boxA

/-- C10: the IoU helper is total with values in [0, 1], symmetric, and
returns exactly 0 on empty intersection or on a degenerate (non-positive
area) argument box; division only ever happens against a positive
denominator. -/
theorem iou_bounds_symm_zero (boxA boxB : Box) :
    0 ≤ iou boxA boxB ∧ iou boxA boxB ≤ 1 ∧ iou boxA boxB = iou boxB boxA ∧
    (interArea boxA boxB ≤ 0 → iou boxA boxB = 0) ∧
    (boxArea boxA ≤ 0 → iou boxA boxB = 0) ∧
    (boxArea boxB ≤ 0 → iou boxA boxB = 0) := by
  have hAB := interArea_le_left boxA boxB
  have hBA := interArea_le_right boxA boxB
  have hzero : ∀ h : interArea boxA boxB ≤ 0, iou boxA boxB = 0 := by
    intro h
    unfold iou
    rw [if_pos h]
  refine ⟨?_, ?_, ?_, hzero, ?_, ?_⟩
  · unfold iou
    split_ifs with h1 h2
    · exact le_rfl
    · exact div_nonneg (le_of_not_le h1) (le_of_lt h2)
    · exact le_rfl
  · unfold iou
    split_ifs with h1 h2
    · exact zero_le_one
    · rw [div_le_one h2]
      linarith
    · exact zero_le_one
  · unfold iou
    rw [interArea_comm, add_comm (boxArea boxA) (boxArea boxB)]
  · intro h
    exact hzero (le_trans hAB h)
  · intro h
    exact hzero (le_trans hBA h)

/-- C10 witness: the theorem applied to a degenerate zero-width box and a
disjoint box, discharging each hypothesis of the guard clauses. -/
theorem iou_bounds_symm_zero_witness :
    0 ≤ iou ⟨0, 0, 0, 10⟩ ⟨5, 5, 6, 6⟩ ∧ iou ⟨0, 0, 0, 10⟩ ⟨5, 5, 6, 6⟩ ≤ 1 ∧
    iou ⟨0, 0, 0, 10⟩ ⟨5, 5, 6, 6⟩ = 0 ∧ iou ⟨5, 5, 6, 6⟩ ⟨0, 0, 0, 10⟩ = 0 :=
  ⟨(iou_bounds_symm_zero ⟨0, 0, 0, 10⟩ ⟨5, 5, 6, 6⟩).1,
   (iou_bounds_symm_zero ⟨0, 0, 0, 10⟩ ⟨5, 5, 6, 6⟩).2.1,
   (iou_bounds_symm_zero ⟨0, 0, 0, 10⟩ ⟨5, 5, 6, 6⟩).2.2.2.2.1
     (by norm_num [boxArea]),
   (iou_bounds_symm_zero ⟨5, 5, 6, 6⟩ ⟨0, 0, 0, 10⟩).2.2.2.1
     (by norm_num [interArea])⟩

/-- C6: the smoothed rate emitted for the first closed bucket is exactly
that bucket's instantaneous rate, and each later emission is
0.3 * rate + 0.7 * previous EMA. -/
theorem ema_seed_and_recurrence (r : ℚ) (rs : List ℚ) (e x : ℚ) (xs : List ℚ) :
    (emaSamples none (r :: rs)).head? = some r ∧
    emaSamples (some e) (x :: xs) =
      (3/10 * x + 7/10 * e) :: emaSamples (some (3/10 * x + 7/10 * e)) xs := by
  have hupd : emaUpdate (some e) x = 3/10 * x + 7/10 * e := by
    unfold emaUpdate ema_alpha
    ring
  constructor
  · rfl
  · rw [emaSamples, hupd]

theorem zip_map_fst_snd (l : List (ℚ × ℚ)) :
    (l.map Prod.fst).zip (l.map Prod.snd) = l := by
  rw [List.zip_map']
  simp

theorem slope_eq (w : ℚ) (samples : List (ℚ × ℚ)) :
    computeSlope w samples = slopeSpec w samples := by
  unfold computeSlope slopeSpec windowedSamples olsSlope sxx sxy xmean ymean
  cases hl : samples.getLast? with
  | none => rfl
  | some tlast =>
    simp only [List.length_map, List.map_map, Function.comp_def, zip_map_fst_snd]

theorem sum_map_add_const (l : List ℚ) (c : ℚ) :
    (l.map fun x => x + c).sum = l.sum + l.length * c := by
  induction l with
  | nil => simp
  | cons a l ih =>
    simp only [List.map_cons, List.sum_cons, List.length_cons, ih]
    push_cast
    ring

theorem xmean_shift (c : ℚ) (pts : List (ℚ × ℚ)) (hn : (pts.length : ℚ) ≠ 0) :
    xmean (pts.map fun p => (p.1 + c, p.2)) = xmean pts + c := by
  unfold xmean
  simp only [List.length_map, List.map_map, Function.comp_def]
  have h1 : (pts.map fun x => ((x.1 + c, x.2) : ℚ × ℚ).1) =
      (pts.map Prod.fst).map fun x => x + c := by
    simp [List.map_map, Function.comp_def]
  rw [h1, sum_map_add_const, List.length_map, add_div, mul_div_cancel_left₀ _ hn]

theorem ymean_shift (c : ℚ) (pts : List (ℚ × ℚ)) :
    ymean (pts.map fun p => (p.1 + c, p.2)) = ymean pts := by
  unfold ymean
  simp [List.map_map, Function.comp_def]

theorem sxx_shift (c : ℚ) (pts : List (ℚ × ℚ)) (hn : (pts.length : ℚ) ≠ 0) :
    sxx (pts.map fun p => (p.1 + c, p.2)) = sxx pts := by
  unfold sxx
  rw [xmean_shift c pts hn]
  simp only [List.map_map, Function.comp_def]
  congr 1
  apply List.map_congr_left
  intro p _
  ring

theorem sxy_shift (c : ℚ) (pts : List (ℚ × ℚ)) (hn : (pts.length : ℚ) ≠ 0) :
    sxy (pts.map fun p => (p.1 + c, p.2)) = sxy pts := by
  unfold sxy
  rw [xmean_shift c pts hn, ymean_shift c pts]
  simp only [List.map_map, Function.comp_def]
  congr 1
  apply List.map_congr_left
  intro p _
  ring

theorem olsSlope_shift (c : ℚ) (pts : List (ℚ × ℚ)) :
    olsSlope (pts.map fun p => (p.1 + c, p.2)) = olsSlope pts := by
  unfold olsSlope
  rw [List.length_map]
  by_cases h2 : pts.length < 2
  · rw [if_pos h2, if_pos h2]
  · have hn : (pts.length : ℚ) ≠ 0 := by
      have : 2 ≤ pts.length := le_of_not_lt h2
      exact_mod_cast Nat.cast_ne_zero.mpr (by omega)
    rw [if_neg h2, if_neg h2, sxx_shift c pts hn, sxy_shift c pts hn]

theorem windowed_shift (c w : ℚ) (samples : List (ℚ × ℚ)) :
    windowedSamples w (samples.map fun p => (p.1 + c, p.2)) =
      (windowedSamples w samples).map fun p => (p.1 + c, p.2) := by
  unfold windowedSamples
  rw [List.getLast?_map]
  cases samples.getLast? with
  | none => rfl
  | some tlast =>
    simp only [Option.map_some']
    rw [List.filter_map]
    congr 1
    apply List.filter_congr
    intro p _
    simp only [Function.comp_def]
    apply decide_eq_decide.mpr
    constructor <;> intro <;> linarith

theorem slopeSpec_shift (c w : ℚ) (samples : List (ℚ × ℚ)) :
    slopeSpec w (samples.map fun p => (p.1 + c, p.2)) = slopeSpec w samples := by
  unfold slopeSpec
  rw [windowed_shift, olsSlope_shift]

/-- C7: the slope computation equals the OLS regression slope
sxy/sxx of the samples inside the trailing window measured from the most
recent sample's bucket index, returning 0 when fewer than 2 samples lie in
the window or when the x-variance is at most 1e-9; the default window is
12 buckets for streams and 10 for offline analysis. -/
theorem slope_is_windowed_ols :
    (∀ (w : ℚ) (samples : List (ℚ × ℚ)), computeSlope w samples = slopeSpec w samples) ∧
    slope_window_seconds_stream = 12 ∧ slope_window_seconds_offline = 10 :=
  ⟨slope_eq, rfl, rfl⟩

/-- C8: the windowed regression slope is invariant under adding one
constant to every bucket index. -/
theorem slope_shift_invariant (c w : ℚ) (samples : List (ℚ × ℚ)) :
    computeSlope w (samples.map fun p => (p.1 + c, p.2)) = computeSlope w samples := by
  rw [slope_eq, slope_eq, slopeSpec_shift]

section
set_option maxHeartbeats 3200000

/-- C9: with all four directions present, north and south are both
overwritten to the north/south maximum and east and west to the east/west
maximum, returned in the order north, west, east, south; the north/south
outcome never depends on the east/west inputs and conversely; and the
output is always sorted in the fixed compass order. -/
theorem opposing_pair_fairness (vn vs ve vw : ℤ) :
    analyzeMultiLanes (some vn) (some vs) (some ve) (some vw) =
      [(Direction.north, max vn vs), (Direction.west, max ve vw),
        (Direction.east, max ve vw), (Direction.south, max vn vs)] ∧
    (∀ n s e w e2 w2 : Option ℤ,
      (analyzeMultiLanes n s e w).filter
          (fun p => p.1 = Direction.north ∨ p.1 = Direction.south) =
        (analyzeMultiLanes n s e2 w2).filter
          (fun p => p.1 = Direction.north ∨ p.1 = Direction.south)) ∧
    (∀ n s n2 s2 e w : Option ℤ,
      (analyzeMultiLanes n s e w).filter
          (fun p => p.1 = Direction.east ∨ p.1 = Direction.west) =
        (analyzeMultiLanes n2 s2 e w).filter
          (fun p => p.1 = Direction.east ∨ p.1 = Direction.west)) ∧
    (∀ n s e w : Option ℤ,
      ((analyzeMultiLanes n s e w).map fun p => dirOrder p.1).Sorted (· ≤ ·)) := by
  refine ⟨rfl, ?_, ?_, ?_⟩
  · intro n s e w e2 w2
    cases n <;> cases s <;> cases e <;> cases w <;> cases e2 <;> cases w2 <;> rfl
  · intro n s n2 s2 e w
    cases n <;> cases s <;> cases n2 <;> cases s2 <;> cases e <;> cases w <;> rfl
  · intro n s e w
    cases n <;> cases s <;> cases e <;> cases w <;>
      simp [analyzeMultiLanes, sortLanes, pairAdjust, lanesOut, byDir, maxPair,
        List.insertionSort, List.orderedInsert, dirOrder]

end

end Traffic
